import Mathlib

set_option maxRecDepth 40000

/-!
Formal model of `generate_repo.py`, a static Kodi repository-index generator.

The script scans a directory of add-on zip archives, reads the embedded
`addon.xml` descriptor of each archive, keeps the highest version per add-on
id under a custom version ordering, and writes `addons.xml` (an aggregated
XML document) together with `addons.xml.md5` (the MD5 hex digest of that
file's exact bytes).

This file is a shallow embedding of that program:
* strings are Lean `String`/`List Char` (code points, as in Python 3 `str`);
* bytes are `Nat` values below 256 in a `List Nat`;
* character classes model the ASCII behaviour of `\d`, `[A-Za-z]`,
  `str.lower()` and `str.isdigit()` (all data handled by the script's own
  string literals is ASCII);
* the filesystem is a record with one optional field per output file;
* `sys.exit(1)` is an explicit outcome value;
* per-archive exceptions (`zipfile.BadZipFile`, XML parse errors, missing
  attributes) are `Except` values threaded through `processZip`.
-/

/-! ### Character classes and character-list comparison

`isDigitChar` models the regex class `\d` (restricted to ASCII digits),
`isAlphaChar` models `[A-Za-z]`, and `toLowerChar` models `str.lower()`
on ASCII characters.  `clLt` models Python's `<` on `str`: lexicographic
comparison by code point, with a proper prefix comparing below any
extension.
-/

def isDigitChar (c : Char) : Bool := 48 ≤ c.toNat && c.toNat ≤ 57

def isAlphaChar (c : Char) : Bool :=
  (65 ≤ c.toNat && c.toNat ≤ 90) || (97 ≤ c.toNat && c.toNat ≤ 122)

def toLowerChar (c : Char) : Char :=
  if 65 ≤ c.toNat && c.toNat ≤ 90 then Char.ofNat (c.toNat + 32) else c

def clLt : List Char → List Char → Bool
  | _, [] => false
  | [], _ :: _ => true
  | a :: as, b :: bs => if a = b then clLt as bs else decide (a.toNat < b.toNat)

/-! ### Tokenizing a version string

`re.findall(r"\d+|[A-Za-z]+", v)` returns, in order, the maximal runs of
ASCII digits and the maximal runs of ASCII letters of `v`; every other
character separates runs and is discarded.  `findallRuns` embeds that scan
as a left-to-right automaton: the accumulator holds the run currently being
read, `emitStep` yields the runs completed at each character and `accStep`
advances the accumulator.
-/

inductive RunAcc where
  | noRun : RunAcc
  | digRun (r : List Char) : RunAcc
  | alphaRun (r : List Char) : RunAcc
deriving DecidableEq

def flushAcc : RunAcc → List (List Char)
  | .noRun => []
  | .digRun r => [r]
  | .alphaRun r => [r]

def accStep (a : RunAcc) (c : Char) : RunAcc :=
  if isDigitChar c then
    match a with
    | .digRun r => .digRun (r ++ [c])
    | _ => .digRun [c]
  else if isAlphaChar c then
    match a with
    | .alphaRun r => .alphaRun (r ++ [c])
    | _ => .alphaRun [c]
  else .noRun

def emitStep (a : RunAcc) (c : Char) : List (List Char) :=
  if isDigitChar c then
    match a with
    | .digRun _ => []
    | _ => flushAcc a
  else if isAlphaChar c then
    match a with
    | .alphaRun _ => []
    | _ => flushAcc a
  else flushAcc a

def findallAux : RunAcc → List Char → List (List Char)
  | a, [] => flushAcc a
  | a, c :: cs => emitStep a c ++ findallAux (accStep a c) cs

/-- The token runs of a character list, as produced by
`re.findall(r"\d+|[A-Za-z]+", v)` scanning left to right. -/
def findallRuns (l : List Char) : List (List Char) := findallAux .noRun l

/-- Declarative description of the same tokenization used by the spec text:
take the maximal digit run or the maximal letter run starting at each
position, and drop every other character. -/
def runsSpec (l : List Char) : List (List Char) :=
  match l with
  | [] => []
  | c :: cs =>
    if isDigitChar c then
      (c :: cs.takeWhile isDigitChar) :: runsSpec (cs.dropWhile isDigitChar)
    else if isAlphaChar c then
      (c :: cs.takeWhile isAlphaChar) :: runsSpec (cs.dropWhile isAlphaChar)
    else runsSpec cs
termination_by l.length
decreasing_by
  · exact Nat.lt_succ_of_le (List.dropWhile_sublist isDigitChar).length_le
  · exact Nat.lt_succ_of_le (List.dropWhile_sublist isAlphaChar).length_le
  · exact Nat.lt_succ_of_le (Nat.le_refl _)

/-! ### Normalized version tuples

`normalize_version` turns each run into either `(0, int(token))` — a digit
run read as a decimal integer — or `(1, token.lower())` — a letter run
lowercased.  `VTok.num` and `VTok.alpha` embed those two tuple shapes; the
leading `0`/`1` discriminant is the constructor itself, so `vtokLt` puts
every `num` below every `alpha`, exactly as Python compares `(0, _) < (1, _)`.
-/

inductive VTok where
  | num (n : Nat) : VTok
  | alpha (s : List Char) : VTok
deriving DecidableEq

/-- `int(token)` on a run of ASCII digits. -/
def digitsToNat (l : List Char) : Nat :=
  l.foldl (fun n c => 10 * n + (c.toNat - 48)) 0

/-- One token of the normalized tuple: `(0, int(token))` if the run is all
digits (`token.isdigit()`), else `(1, token.lower())`. -/
def tokOf (t : List Char) : VTok :=
  if t.all isDigitChar then .num (digitsToNat t) else .alpha (t.map toLowerChar)

/-- `normalize_version` on the underlying character list. -/
def normTokens (l : List Char) : List VTok := (findallRuns l).map tokOf

/-- The source's `normalize_version`: tokenize and map each run to its
normalized token. -/
def normalize_version (v : String) : List VTok := normTokens v.data

/-- Python `<` on a pair of token tuples: `num` vs `num` compares the
integers, `alpha` vs `alpha` compares the lowercased text, and a `num`
(discriminant 0) is below an `alpha` (discriminant 1). -/
def vtokLt : VTok → VTok → Bool
  | .num n, .num m => decide (n < m)
  | .num _, .alpha _ => true
  | .alpha _, .num _ => false
  | .alpha s, .alpha t => clLt s t

/-- Python `<` on the outer tuples: scan for the first position where the
tokens differ and compare there; if one tuple is a proper prefix of the
other, the shorter one is smaller. -/
def vlistLt : List VTok → List VTok → Bool
  | _, [] => false
  | [], _ :: _ => true
  | a :: as, b :: bs => if a = b then vlistLt as bs else vtokLt a b

/-- `normalize_version a < normalize_version b`. -/
def verLt (a b : String) : Bool := vlistLt (normalize_version a) (normalize_version b)

/-- `normalize_version new > normalize_version old`, the comparison used by
the selection loop.  Python tuple `>` is the mirror image of `<` (same
first-difference scan with the roles swapped), so it is embedded as the
flipped `<`. -/
def verGt (new old : String) : Bool :=
  vlistLt (normalize_version old) (normalize_version new)

/-! ### The selection table

`main` keeps `latest`, a dict from add-on id to the best record seen so far.
A Python dict is embedded as an association list: assignment to an existing
key updates it in place, assignment to a fresh key appends it.
-/

/-- An XML element as far as the script inspects it: its attribute map
(`elem.attrib`) and, abstractly, the byte string `ET.tostring` serializes
the whole element subtree to (ElementTree serialization of a child element
does not depend on its siblings). -/
structure XmlElem where
  attrs : List (String × String)
  frag : String
deriving DecidableEq

/-- One record yielded by `find_addons`: `(addon_id, addon_ver, elem, zip_path)`. -/
structure AddonRec where
  id : String
  ver : String
  elem : XmlElem
  zpath : String
deriving DecidableEq

/-- Python dict assignment `d[k] = v`: overwrite the entry in place if the
key is present, append it otherwise. -/
def setEntry : List (String × AddonRec) → String → AddonRec → List (String × AddonRec)
  | [], k, v => [(k, v)]
  | (k1, v1) :: rest, k, v =>
    if k1 = k then (k, v) :: rest else (k1, v1) :: setEntry rest k v

/-- One iteration of the selection loop: keep the new record if its id is
unseen or its version is strictly greater than the kept one. -/
def selStep (tab : List (String × AddonRec)) (r : AddonRec) : List (String × AddonRec) :=
  match List.lookup r.id tab with
  | none => setEntry tab r.id r
  | some best => if verGt r.ver best.ver then setEntry tab r.id r else tab

/-! ### Archives and `find_addons`

A zip archive is modelled by what the script observes of it: whether opening
it raises `zipfile.BadZipFile`, its `namelist()`, and for each member name
the result of reading and XML-parsing it (`Except.error` records the message
of the exception raised while reading or parsing).
-/

deriving instance DecidableEq for Except

structure ZipFile where
  path : String
  bad : Bool
  names : List String
  entries : List (String × Except String XmlElem)
deriving DecidableEq

/-- `str.lower()` (ASCII model). -/
def lowerStr (s : String) : String := ⟨s.data.map toLowerChar⟩

/-- Python `s.endswith(t)`. -/
def strEndsWith (s t : String) : Bool := s.data.reverse.take t.data.length == t.data.reverse

/-- The member-name test of the scan loop: `n.lower().endswith("/addon.xml")`. -/
def isDescriptorName (n : String) : Bool := strEndsWith (lowerStr n) "/addon.xml"

/-- The loop over `z.namelist()` with `break` at the first hit: the first
member whose lowercased name ends with `/addon.xml`, if any. -/
def chooseDescriptor (names : List String) : Option String :=
  names.find? isDescriptorName

/-- Reading and parsing one member of the archive.  A name produced by
`namelist()` is always present in the archive, so the default branch (a
`KeyError` from a name not in the table) only keeps the model total. -/
def readEntry (z : ZipFile) (n : String) : Except String XmlElem :=
  (List.lookup n z.entries).getD (.error "KeyError")

/-- `elem.attrib.get(k)`. -/
def getAttr (e : XmlElem) (k : String) : Option String := List.lookup k e.attrs

/-- Python truthiness of `elem.attrib.get(k)`: `None` and the empty string
are both falsy, so `if not addon_id or not addon_ver` skips the archive
when either attribute is absent or empty. -/
def truthyAttr : Option String → Bool
  | none => false
  | some s => !(s == "")

/-- Processing of a single archive inside the `try` block: the `Except.error`
branches are exactly the paths on which the script prints a `[WARN]` line to
stderr and moves on to the next archive.  (The Python code tests the negated
condition `if not addon_id or not addon_ver: warn` and yields otherwise;
this is the same split stated positively.) -/
def processZip (z : ZipFile) : Except String AddonRec :=
  if z.bad then .error ("[WARN] Bad zip file: " ++ z.path)
  else
    match chooseDescriptor z.names with
    | none => .error ("[WARN] No addon.xml found in " ++ z.path)
    | some n =>
      match readEntry z n with
      | .error e => .error ("[WARN] " ++ z.path ++ ": " ++ e)
      | .ok elem =>
        if truthyAttr (getAttr elem "id") && truthyAttr (getAttr elem "version") then
          .ok { id := (getAttr elem "id").getD "", ver := (getAttr elem "version").getD "",
                elem := elem, zpath := z.path }
        else .error ("[WARN] Missing id/version in " ++ z.path)

/-- `find_addons` over the scanned archives: the yielded records and the
warnings printed to stderr, in scan order. -/
def findAddons : List ZipFile → List AddonRec × List String
  | [] => ([], [])
  | z :: zs =>
    match processZip z with
    | .ok r => (r :: (findAddons zs).1, (findAddons zs).2)
    | .error w => ((findAddons zs).1, w :: (findAddons zs).2)

/-- The finished selection table of `main`: fold the selection step over the
records in scan order, starting from the empty dict. -/
def latestTable (zips : List ZipFile) : List (String × AddonRec) :=
  ((findAddons zips).1).foldl selStep []

/-! ### Sorting the selected identifiers

`sorted(latest.keys())` sorts the id strings by Python `<`, i.e. by code
point.  It is embedded as an insertion sort with the same order; on the
duplicate-free key list of a dict the sorted result is unique, so any
correct sort agrees with Python's. -/

def insortKey (k : String) : List String → List String
  | [] => [k]
  | x :: xs => if clLt k.data x.data then k :: x :: xs else x :: insortKey k xs

def sortStrings (l : List String) : List String := l.foldr insortKey []

/-- `[latest[k] for k in sorted(latest.keys())]`: the kept records in
ascending id order.  `latest[k]` always succeeds for a key of the dict, so
the lookup is total on this list; `filterMap` keeps the model total. -/
def selectedRecords (zips : List ZipFile) : List AddonRec :=
  (sortStrings ((latestTable zips).map Prod.fst)).filterMap
    (fun k => List.lookup k (latestTable zips))

/-! ### UTF-8 bytes

The output file is written in binary mode, so its content is a byte
sequence: the UTF-8 encoding of the serialized text. -/

/-- UTF-8 encoding of one code point. -/
def utf8Char (c : Char) : List Nat :=
  let n := c.toNat
  if n < 128 then [n]
  else if n < 2048 then [192 + n / 64, 128 + n % 64]
  else if n < 65536 then [224 + n / 4096, 128 + n / 64 % 64, 128 + n % 64]
  else [240 + n / 262144, 128 + n / 4096 % 64, 128 + n / 64 % 64, 128 + n % 64]

/-- UTF-8 encoding of a string. -/
def utf8Encode (s : String) : List Nat := s.data.flatMap utf8Char

/-! ### MD5

`hashlib.md5(content).hexdigest()`, embedded as the RFC 1321 algorithm on
byte lists, with 32-bit words as `Nat` values reduced mod `2 ^ 32`. -/

/-- The 64 sine-derived round constants `floor(abs(sin(i + 1)) * 2 ^ 32)`. -/
def md5K : List Nat :=
  [0xd76aa478, 0xe8c7b756, 0x242070db, 0xc1bdceee,
   0xf57c0faf, 0x4787c62a, 0xa8304613, 0xfd469501,
   0x698098d8, 0x8b44f7af, 0xffff5bb1, 0x895cd7be,
   0x6b901122, 0xfd987193, 0xa679438e, 0x49b40821,
   0xf61e2562, 0xc040b340, 0x265e5a51, 0xe9b6c7aa,
   0xd62f105d, 0x02441453, 0xd8a1e681, 0xe7d3fbc8,
   0x21e1cde6, 0xc33707d6, 0xf4d50d87, 0x455a14ed,
   0xa9e3e905, 0xfcefa3f8, 0x676f02d9, 0x8d2a4c8a,
   0xfffa3942, 0x8771f681, 0x6d9d6122, 0xfde5380c,
   0xa4beea44, 0x4bdecfa9, 0xf6bb4b60, 0xbebfbc70,
   0x289b7ec6, 0xeaa127fa, 0xd4ef3085, 0x04881d05,
   0xd9d4d039, 0xe6db99e5, 0x1fa27cf8, 0xc4ac5665,
   0xf4292244, 0x432aff97, 0xab9423a7, 0xfc93a039,
   0x655b59c3, 0x8f0ccc92, 0xffeff47d, 0x85845dd1,
   0x6fa87e4f, 0xfe2ce6e0, 0xa3014314, 0x4e0811a1,
   0xf7537e82, 0xbd3af235, 0x2ad7d2bb, 0xeb86d391]

/-- The per-round left-rotation amounts. -/
def md5S : List Nat :=
  [7, 12, 17, 22, 7, 12, 17, 22, 7, 12, 17, 22, 7, 12, 17, 22,
   5, 9, 14, 20, 5, 9, 14, 20, 5, 9, 14, 20, 5, 9, 14, 20,
   4, 11, 16, 23, 4, 11, 16, 23, 4, 11, 16, 23, 4, 11, 16, 23,
   6, 10, 15, 21, 6, 10, 15, 21, 6, 10, 15, 21, 6, 10, 15, 21]

/-- Left rotation of a 32-bit word. -/
def rotl32 (x s : Nat) : Nat :=
  (((x <<< s) % 4294967296) ||| (x >>> (32 - s)))

/-- The round function F/G/H/I of rounds 0-15, 16-31, 32-47, 48-63. -/
def md5F (i b c d : Nat) : Nat :=
  if i < 16 then (b &&& c) ||| ((b ^^^ 4294967295) &&& d)
  else if i < 32 then (d &&& b) ||| ((d ^^^ 4294967295) &&& c)
  else if i < 48 then b ^^^ c ^^^ d
  else c ^^^ (b ||| (d ^^^ 4294967295))

/-- The message-word index selected in round `i`. -/
def md5G (i : Nat) : Nat :=
  if i < 16 then i
  else if i < 32 then (5 * i + 1) % 16
  else if i < 48 then (3 * i + 5) % 16
  else (7 * i) % 16

/-- A little-endian 32-bit word from up to four bytes. -/
def le32 (l : List Nat) : Nat := l.foldr (fun b acc => b + 256 * acc) 0

/-- The four little-endian bytes of a 32-bit word. -/
def word4LE (w : Nat) : List Nat :=
  [w % 256, (w >>> 8) % 256, (w >>> 16) % 256, (w >>> 24) % 256]

/-- One of the 64 state updates of a block. -/
def md5Round (M : Nat → Nat) (s : Nat × Nat × Nat × Nat) (i : Nat) :
    Nat × Nat × Nat × Nat :=
  let a := s.1; let b := s.2.1; let c := s.2.2.1; let d := s.2.2.2
  let f := (md5F i b c d + a + md5K.getD i 0 + M (md5G i)) % 4294967296
  (d, (b + rotl32 f (md5S.getD i 0)) % 4294967296, b, c)

/-- Compression of one 64-byte block into the running state. -/
def md5Block (st0 : Nat × Nat × Nat × Nat) (block : List Nat) : Nat × Nat × Nat × Nat :=
  let M : Nat → Nat := fun g => le32 ((block.drop (4 * g)).take 4)
  let st := (List.range 64).foldl (md5Round M) st0
  ((st0.1 + st.1) % 4294967296, (st0.2.1 + st.2.1) % 4294967296,
   (st0.2.2.1 + st.2.2.1) % 4294967296, (st0.2.2.2 + st.2.2.2) % 4294967296)

/-- Merkle-Damgard padding: `0x80`, zeros to 56 mod 64, then the bit length
as a little-endian 64-bit value. -/
def md5Pad (msg : List Nat) : List Nat :=
  msg ++ 128 :: List.replicate ((119 - msg.length % 64) % 64) 0
      ++ (List.range 8).map (fun i => (((8 * msg.length) % 18446744073709551616) >>> (8 * i)) % 256)

/-- The padded message split into 64-byte blocks. -/
def md5Chunks (msg : List Nat) : List (List Nat) :=
  let padded := md5Pad msg
  (List.range (padded.length / 64)).map (fun i => (padded.drop (64 * i)).take 64)

/-- The 16-byte MD5 digest of a byte sequence. -/
def md5Digest (msg : List Nat) : List Nat :=
  let st := (md5Chunks msg).foldl md5Block
    (0x67452301, 0xefcdab89, 0x98badcfe, 0x10325476)
  word4LE st.1 ++ word4LE st.2.1 ++ word4LE st.2.2.1 ++ word4LE st.2.2.2

/-- The sixteen lowercase hex digits. -/
def hexDigits : List Char := "0123456789abcdef".data

def hexChar (n : Nat) : Char := hexDigits.getD n '0'

/-- The two hex characters of one byte. -/
def byteHexChars (b : Nat) : List Char := [hexChar (b / 16 % 16), hexChar (b % 16)]

/-- `hashlib.md5(msg).hexdigest()`. -/
def md5hex (msg : List Nat) : String := ⟨(md5Digest msg).flatMap byteHexChars⟩

/-! ### Serialization and the output files -/

/-- The fixed declaration header written before the serialized root, exactly
as the byte literal in `build_addons_xml` (including its newline). -/
def XML_HEADER : String := "<?xml version=\"1.0\" encoding=\"UTF-8\" standalone=\"yes\"?>\n"

/-- `ET.tostring(addons_root, encoding="utf-8")` for the root `<addons>`
element holding the given serialized child fragments.  In Python 3,
`tostring` adds no XML declaration of its own for the encodings US-ASCII,
UTF-8 and Unicode, so the result is the bare root element; with no children
the element is self-closed. -/
def serializeAddons (frags : List String) : String :=
  if frags = [] then "<addons />"
  else "<addons>" ++ String.join frags ++ "</addons>"

/-- The full text written to `addons.xml`: the fixed header, then the
serialized root. -/
def addonsXmlText (frags : List String) : String :=
  XML_HEADER ++ serializeAddons frags

/-- The two output files of a run, each `none` while not written. -/
structure FileSystem where
  addonsXml : Option (List Nat)
  addonsMd5 : Option String
deriving DecidableEq

/-- `build_addons_xml`: write the header and serialized root to
`addons.xml`, re-read the exact bytes of that file, and write their MD5 hex
digest to `addons.xml.md5`. -/
def buildAddonsXml (frags : List String) (fs : FileSystem) : FileSystem :=
  let fs1 : FileSystem := { fs with addonsXml := some (utf8Encode (addonsXmlText frags)) }
  let content := fs1.addonsXml.getD []
  { fs1 with addonsMd5 := some (md5hex content) }

/-- The two ways `main` can end: `sys.exit(1)` with the diagnostic printed
to stderr, or a normal return after writing the outputs. -/
inductive RunOutcome where
  | exitFail (diagnostic : String) : RunOutcome
  | finished : RunOutcome
deriving DecidableEq

/-- `main`: gather the latest record per id; if none were found, print a
diagnostic and exit with status 1 without touching the output files;
otherwise write both output files from the records in sorted id order.
(The summary printed to stdout on success is not modelled.) -/
def runMain (zipsDir : String) (zips : List ZipFile) (fs : FileSystem) :
    FileSystem × RunOutcome :=
  if latestTable zips = [] then
    (fs, .exitFail ("No add-ons found under " ++ zipsDir))
  else
    (buildAddonsXml ((selectedRecords zips).map (fun r => r.elem.frag)) fs, .finished)

/-! ### Concrete fixtures

Small archives used to instantiate the theorems on concrete inputs. -/

def elemA : XmlElem :=
  { attrs := [("id", "a.addon"), ("version", "1.2.0")],
    frag := "<addon id=\"a.addon\" version=\"1.2.0\" />" }

def zipA : ZipFile :=
  { path := "zips/a.addon-1.2.0.zip", bad := false,
    names := ["a.addon/addon.xml"], entries := [("a.addon/addon.xml", .ok elemA)] }

def elemB : XmlElem :=
  { attrs := [("id", "b.addon"), ("version", "1.0.0")],
    frag := "<addon id=\"b.addon\" version=\"1.0.0\" />" }

def zipB : ZipFile :=
  { path := "zips/b.addon-1.0.0.zip", bad := false,
    names := ["b.addon/addon.xml"], entries := [("b.addon/addon.xml", .ok elemB)] }

def elemA2 : XmlElem :=
  { attrs := [("id", "a.addon"), ("version", "1.3.0")],
    frag := "<addon id=\"a.addon\" version=\"1.3.0\" />" }

def zipA2 : ZipFile :=
  { path := "zips/a.addon-1.3.0.zip", bad := false,
    names := ["a.addon/addon.xml"], entries := [("a.addon/addon.xml", .ok elemA2)] }

/-- A corrupt archive: opening it raises `zipfile.BadZipFile`. -/
def zipBroken : ZipFile :=
  { path := "zips/broken.zip", bad := true, names := [], entries := [] }

/-- An archive whose only `addon.xml` sits at the root, with no `/` before
it, so the member-name test never fires. -/
def zipRootDesc : ZipFile :=
  { path := "zips/rootdesc.zip", bad := false,
    names := ["addon.xml"], entries := [("addon.xml", .ok elemA)] }

/-- The record `find_addons` yields for `zipA`. -/
def recA : AddonRec :=
  { id := "a.addon", ver := "1.2.0", elem := elemA, zpath := zipA.path }

/-- The record `find_addons` yields for `zipB`. -/
def recB : AddonRec :=
  { id := "b.addon", ver := "1.0.0", elem := elemB, zpath := zipB.path }

/-- The record `find_addons` yields for `zipA2`. -/
def recA2 : AddonRec :=
  { id := "a.addon", ver := "1.3.0", elem := elemA2, zpath := zipA2.path }

/-- An empty starting filesystem. -/
def fs0 : FileSystem := { addonsXml := none, addonsMd5 := none }

/-- A concrete case change: swap the case of the letter A. -/
def swapCaseA (c : Char) : Char :=
  if c = 'A' then 'a' else if c = 'a' then 'A' else c

/-! ### Auxiliary notions used by the theorems -/

/-- A character map that only changes letter case: it preserves the digit
and letter classes and the lowercased value of every character.  Any map
that swaps upper- and lowercase letters satisfies this. -/
def CaseLike (f : Char → Char) : Prop :=
  ∀ c, isDigitChar (f c) = isDigitChar c ∧ isAlphaChar (f c) = isAlphaChar c ∧
       toLowerChar (f c) = toLowerChar c

/-- The tokenizer accumulator with its stored run mapped. -/
def mapAcc (f : Char → Char) : RunAcc → RunAcc
  | .noRun => .noRun
  | .digRun r => .digRun (r.map f)
  | .alphaRun r => .alphaRun (r.map f)

/-- The runs completed while the scan consumes a prefix. -/
def emittedPre : RunAcc → List Char → List (List Char)
  | _, [] => []
  | a, c :: cs => emitStep a c ++ emittedPre (accStep a c) cs

/-! ## Theorems -/

theorem chEqOfToNatEq {a b : Char} (h : a.toNat = b.toNat) : a = b := by
  apply Char.eq_of_val_eq
  apply UInt32.eq_of_toBitVec_eq
  exact BitVec.eq_of_toNat_eq h

theorem clLt_irrefl (l : List Char) : clLt l l = false := by
  induction l with
  | nil => rfl
  | cons a as ih => simp [clLt, ih]

theorem clLt_trans {a b c : List Char} (h1 : clLt a b = true) (h2 : clLt b c = true) :
    clLt a c = true := by
  induction a generalizing b c with
  | nil =>
    cases c with
    | nil =>
      cases b with
      | nil => exact h1
      | cons b bs => simp [clLt] at h2
    | cons c cs => rfl
  | cons a as ih =>
    cases b with
    | nil => simp [clLt] at h1
    | cons b bs =>
      cases c with
      | nil => simp [clLt] at h2
      | cons c cs =>
        simp only [clLt] at h1 h2 ⊢
        by_cases hab : a = b
        · subst hab
          simp only [if_pos rfl] at h1
          by_cases hac : a = c
          · subst hac
            simp only [if_pos rfl] at h2 ⊢
            exact ih h1 h2
          · simp only [if_neg hac] at h2 ⊢
            exact h2
        · simp only [if_neg hab] at h1
          by_cases hbc : b = c
          · subst hbc
            simp only [if_neg hab]
            exact h1
          · simp only [if_neg hbc] at h2
            have hac : a.toNat < c.toNat := Nat.lt_trans (of_decide_eq_true h1) (of_decide_eq_true h2)
            have hne : a ≠ c := by
              intro he
              subst he
              exact absurd hac (Nat.lt_irrefl _)
            simp only [if_neg hne]
            exact decide_eq_true hac

theorem clLt_eq_of_not_lt : ∀ {a b : List Char},
    clLt a b = false → clLt b a = false → a = b := by
  intro a
  induction a with
  | nil =>
    intro b h1 _
    cases b with
    | nil => rfl
    | cons b bs => simp [clLt] at h1
  | cons a as ih =>
    intro b h1 h2
    cases b with
    | nil => simp [clLt] at h2
    | cons b bs =>
      simp only [clLt] at h1 h2
      by_cases hab : a = b
      · subst hab
        simp only [if_pos rfl] at h1 h2
        exact congrArg _ (ih h1 h2)
      · simp only [if_neg hab] at h1
        simp only [if_neg (Ne.symm hab)] at h2
        have e : a.toNat = b.toNat :=
          Nat.le_antisymm (Nat.le_of_not_lt (by simpa using h2)) (Nat.le_of_not_lt (by simpa using h1))
        exact absurd (chEqOfToNatEq e) hab

theorem vtokLt_irrefl (t : VTok) : vtokLt t t = false := by
  cases t with
  | num n => simp [vtokLt]
  | alpha s => simp [vtokLt, clLt_irrefl]

theorem vtokLt_trans {a b c : VTok} (h1 : vtokLt a b = true) (h2 : vtokLt b c = true) :
    vtokLt a c = true := by
  cases a <;> cases b <;> cases c <;> simp_all [vtokLt]
  · exact Nat.lt_trans h1 h2
  · exact clLt_trans h1 h2

theorem vtokLt_eq_of_not_lt {a b : VTok} (h1 : vtokLt a b = false) (h2 : vtokLt b a = false) :
    a = b := by
  cases a <;> cases b <;> simp_all [vtokLt]
  · exact Nat.le_antisymm h2 h1
  · exact clLt_eq_of_not_lt h1 h2

theorem vtokLt_asymm {a b : VTok} (h1 : vtokLt a b = true) : vtokLt b a = false := by
  by_contra h
  have h2 : vtokLt b a = true := by
    cases hv : vtokLt b a
    · exact absurd hv h
    · rfl
  have := vtokLt_trans h1 h2
  rw [vtokLt_irrefl] at this
  cases this

theorem vlistLt_irrefl (l : List VTok) : vlistLt l l = false := by
  induction l with
  | nil => rfl
  | cons a as ih => simp [vlistLt, ih]

theorem vlistLt_trans {a b c : List VTok} (h1 : vlistLt a b = true)
    (h2 : vlistLt b c = true) : vlistLt a c = true := by
  induction a generalizing b c with
  | nil =>
    cases c with
    | nil =>
      cases b with
      | nil => exact h1
      | cons b bs => simp [vlistLt] at h2
    | cons c cs => rfl
  | cons a as ih =>
    cases b with
    | nil => simp [vlistLt] at h1
    | cons b bs =>
      cases c with
      | nil => simp [vlistLt] at h2
      | cons c cs =>
        simp only [vlistLt] at h1 h2 ⊢
        by_cases hab : a = b
        · subst hab
          simp only [if_pos rfl] at h1
          by_cases hac : a = c
          · subst hac
            simp only [if_pos rfl] at h2 ⊢
            exact ih h1 h2
          · simp only [if_neg hac] at h2 ⊢
            exact h2
        · simp only [if_neg hab] at h1
          by_cases hbc : b = c
          · subst hbc
            simp only [if_neg hab]
            exact h1
          · simp only [if_neg hbc] at h2
            have hac : vtokLt a c = true := vtokLt_trans h1 h2
            have hne : a ≠ c := by
              intro he
              subst he
              rw [vtokLt_asymm h1] at h2
              cases h2
            simp only [if_neg hne]
            exact hac

theorem vlistLt_eq_of_not_lt : ∀ {a b : List VTok},
    vlistLt a b = false → vlistLt b a = false → a = b := by
  intro a
  induction a with
  | nil =>
    intro b h1 _
    cases b with
    | nil => rfl
    | cons b bs => simp [vlistLt] at h1
  | cons a as ih =>
    intro b h1 h2
    cases b with
    | nil => simp [vlistLt] at h2
    | cons b bs =>
      simp only [vlistLt] at h1 h2
      by_cases hab : a = b
      · subst hab
        simp only [if_pos rfl] at h1 h2
        exact congrArg _ (ih h1 h2)
      · simp only [if_neg hab] at h1
        simp only [if_neg (Ne.symm hab)] at h2
        exact absurd (vtokLt_eq_of_not_lt h1 h2) hab

theorem findallAux_digRun (s : List Char) : ∀ r, findallAux (.digRun r) s =
    (r ++ s.takeWhile isDigitChar) :: findallAux .noRun (s.dropWhile isDigitChar) := by
  induction s with
  | nil => intro r; simp [findallAux, flushAcc, List.takeWhile, List.dropWhile]
  | cons c cs ih =>
    intro r
    by_cases hd : isDigitChar c
    · rw [List.takeWhile_cons, List.dropWhile_cons]
      simp only [findallAux, emitStep, accStep, hd, if_pos, List.nil_append]
      rw [ih (r ++ [c])]
      simp
    · by_cases ha : isAlphaChar c
      · rw [List.takeWhile_cons, List.dropWhile_cons]
        simp only [findallAux, emitStep, accStep, hd, ha, if_neg, if_pos, flushAcc]
        simp [hd]
      · rw [List.takeWhile_cons, List.dropWhile_cons]
        simp only [findallAux, emitStep, accStep, hd, ha, if_neg, flushAcc]
        simp [hd]

theorem not_alpha_of_digit {c : Char} (hd : isDigitChar c = true) : isAlphaChar c = false := by
  simp only [isDigitChar, Bool.and_eq_true, decide_eq_true_eq] at hd
  simp only [isAlphaChar]
  rw [Bool.eq_false_iff]
  intro h
  simp only [Bool.or_eq_true, Bool.and_eq_true, decide_eq_true_eq] at h
  omega

theorem findallAux_alphaRun (s : List Char) : ∀ r, findallAux (.alphaRun r) s =
    (r ++ s.takeWhile isAlphaChar) :: findallAux .noRun (s.dropWhile isAlphaChar) := by
  induction s with
  | nil => intro r; simp [findallAux, flushAcc, List.takeWhile, List.dropWhile]
  | cons c cs ih =>
    intro r
    by_cases hd : isDigitChar c
    · have ha := not_alpha_of_digit hd
      rw [List.takeWhile_cons, List.dropWhile_cons]
      simp only [findallAux, emitStep, accStep, hd, ha, if_pos, flushAcc]
      simp [ha]
    · by_cases ha : isAlphaChar c
      · rw [List.takeWhile_cons, List.dropWhile_cons]
        have step : findallAux (.alphaRun r) (c :: cs) = findallAux (.alphaRun (r ++ [c])) cs := by
          simp [findallAux, emitStep, accStep, hd, ha]
        rw [step, ih (r ++ [c])]
        simp [ha]
      · rw [List.takeWhile_cons, List.dropWhile_cons]
        simp only [findallAux, emitStep, accStep, hd, ha, if_neg, flushAcc]
        simp [ha]

theorem findallRuns_eq_runsSpec_aux : ∀ (n : Nat) (l : List Char), l.length ≤ n →
    findallRuns l = runsSpec l := by
  intro n
  induction n with
  | zero =>
    intro l hl
    have : l = [] := List.length_eq_zero.mp (Nat.le_zero.mp hl)
    subst this
    rw [runsSpec]
    rfl
  | succ n ih =>
    intro l hl
    cases l with
    | nil => rw [runsSpec]; rfl
    | cons c cs =>
      rw [runsSpec]
      by_cases hd : isDigitChar c
      · have h1 : findallRuns (c :: cs) = findallAux (.digRun [c]) cs := by
          simp [findallRuns, findallAux, emitStep, accStep, hd, flushAcc]
        rw [h1, findallAux_digRun]
        have hlen : (cs.dropWhile isDigitChar).length ≤ n :=
          Nat.le_trans (List.dropWhile_sublist isDigitChar).length_le (Nat.le_of_succ_le_succ hl)
        rw [show findallAux RunAcc.noRun (cs.dropWhile isDigitChar)
              = runsSpec (cs.dropWhile isDigitChar) from ih _ hlen]
        simp [hd]
      · by_cases ha : isAlphaChar c
        · have h1 : findallRuns (c :: cs) = findallAux (.alphaRun [c]) cs := by
            simp [findallRuns, findallAux, emitStep, accStep, hd, ha, flushAcc]
          rw [h1, findallAux_alphaRun]
          have hlen : (cs.dropWhile isAlphaChar).length ≤ n :=
            Nat.le_trans (List.dropWhile_sublist isAlphaChar).length_le (Nat.le_of_succ_le_succ hl)
          rw [show findallAux RunAcc.noRun (cs.dropWhile isAlphaChar)
                = runsSpec (cs.dropWhile isAlphaChar) from ih _ hlen]
          simp [hd, ha]
        · have h1 : findallRuns (c :: cs) = findallRuns cs := by
            simp [findallRuns, findallAux, emitStep, accStep, hd, ha, flushAcc]
          rw [h1, ih cs (Nat.le_of_succ_le_succ hl)]
          simp [hd, ha]

theorem findallRuns_eq_runsSpec (l : List Char) : findallRuns l = runsSpec l :=
  findallRuns_eq_runsSpec_aux l.length l (Nat.le_refl _)

theorem toLowerChar_of_digit {c : Char} (h : isDigitChar c = true) : toLowerChar c = c := by
  simp only [isDigitChar, Bool.and_eq_true, decide_eq_true_eq] at h
  have hcond : (65 ≤ c.toNat && c.toNat ≤ 90) = false := by
    rw [Bool.eq_false_iff]
    intro hb
    simp only [Bool.and_eq_true, decide_eq_true_eq] at hb
    omega
  simp [toLowerChar, hcond]

theorem caseLike_fixes_digit {f : Char → Char} (hf : CaseLike f) {c : Char}
    (h : isDigitChar c = true) : f c = c := by
  have h1 : isDigitChar (f c) = true := by rw [(hf c).1, h]
  calc f c = toLowerChar (f c) := (toLowerChar_of_digit h1).symm
    _ = toLowerChar c := (hf c).2.2
    _ = c := toLowerChar_of_digit h

theorem flushAcc_mapAcc (f : Char → Char) (a : RunAcc) :
    flushAcc (mapAcc f a) = (flushAcc a).map (List.map f) := by
  cases a <;> simp [mapAcc, flushAcc]

theorem accStep_mapAcc {f : Char → Char} (hf : CaseLike f) (a : RunAcc) (c : Char) :
    accStep (mapAcc f a) (f c) = mapAcc f (accStep a c) := by
  by_cases hd : isDigitChar c
  · have h1 : isDigitChar (f c) = true := by rw [(hf c).1, hd]
    cases a <;> simp [accStep, mapAcc, hd, h1]
  · have h1 : isDigitChar (f c) = false := by rw [(hf c).1]; exact Bool.of_not_eq_true hd
    by_cases ha : isAlphaChar c
    · have h2 : isAlphaChar (f c) = true := by rw [(hf c).2.1, ha]
      cases a <;> simp [accStep, mapAcc, hd, h1, ha, h2]
    · have h2 : isAlphaChar (f c) = false := by rw [(hf c).2.1]; exact Bool.of_not_eq_true ha
      cases a <;> simp [accStep, mapAcc, hd, h1, ha, h2]

theorem emitStep_mapAcc {f : Char → Char} (hf : CaseLike f) (a : RunAcc) (c : Char) :
    emitStep (mapAcc f a) (f c) = (emitStep a c).map (List.map f) := by
  by_cases hd : isDigitChar c
  · have h1 : isDigitChar (f c) = true := by rw [(hf c).1, hd]
    cases a <;> simp [emitStep, mapAcc, flushAcc, hd, h1]
  · have h1 : isDigitChar (f c) = false := by rw [(hf c).1]; exact Bool.of_not_eq_true hd
    by_cases ha : isAlphaChar c
    · have h2 : isAlphaChar (f c) = true := by rw [(hf c).2.1, ha]
      cases a <;> simp [emitStep, mapAcc, flushAcc, hd, h1, ha, h2]
    · have h2 : isAlphaChar (f c) = false := by rw [(hf c).2.1]; exact Bool.of_not_eq_true ha
      cases a <;> simp [emitStep, mapAcc, flushAcc, hd, h1, ha, h2]

theorem findallAux_map_caseLike {f : Char → Char} (hf : CaseLike f) (s : List Char) :
    ∀ a, findallAux (mapAcc f a) (s.map f) = (findallAux a s).map (List.map f) := by
  induction s with
  | nil => intro a; simp [findallAux, flushAcc_mapAcc]
  | cons c cs ih =>
    intro a
    simp only [List.map_cons, findallAux]
    rw [emitStep_mapAcc hf, accStep_mapAcc hf, ih (accStep a c)]
    simp

theorem tokOf_map_caseLike {f : Char → Char} (hf : CaseLike f) (t : List Char) :
    tokOf (t.map f) = tokOf t := by
  have hall : (t.map f).all isDigitChar = t.all isDigitChar := by
    rw [Bool.eq_iff_iff, List.all_eq_true, List.all_eq_true]
    constructor
    · intro h x hx
      have hm := h (f x) (List.mem_map_of_mem f hx)
      rwa [(hf x).1] at hm
    · intro h y hy
      rcases List.mem_map.mp hy with ⟨x, hx, rfl⟩
      rw [(hf x).1]
      exact h x hx
  by_cases h : t.all isDigitChar
  · have hfix : t.map f = t := by
      rw [show t.map f = t.map id by
        apply List.map_congr_left
        intro x hx
        exact caseLike_fixes_digit hf (by
          rw [List.all_eq_true] at h
          exact h x hx)]
      exact List.map_id t
    rw [hfix]
  · have h2 : (t.map f).all isDigitChar = false := by
      rw [hall]
      exact Bool.of_not_eq_true h
    simp only [tokOf, h2, Bool.of_not_eq_true h, if_neg]
    simp only [Bool.false_eq_true, if_false, List.map_map]
    congr 1
    apply List.map_congr_left
    intro x _
    exact (hf x).2.2

theorem normTokens_map_caseLike {f : Char → Char} (hf : CaseLike f) (v : List Char) :
    normTokens (v.map f) = normTokens v := by
  unfold normTokens findallRuns
  rw [show (RunAcc.noRun) = mapAcc f .noRun from rfl, findallAux_map_caseLike hf]
  rw [List.map_map]
  apply List.map_congr_left
  intro t _
  exact tokOf_map_caseLike hf t

theorem findallAux_append (p : List Char) : ∀ (a : RunAcc) (x : List Char),
    findallAux a (p ++ x) = emittedPre a p ++ findallAux (p.foldl accStep a) x := by
  induction p with
  | nil => intro a x; simp [emittedPre]
  | cons c cs ih =>
    intro a x
    simp only [List.cons_append, findallAux, emittedPre, List.foldl_cons, List.append_eq]
    rw [ih (accStep a c) x]
    simp

theorem accStep_ne_digRun {d : Char} (hd : isDigitChar d = false) (a : RunAcc) (r : List Char) :
    accStep a d ≠ .digRun r := by
  intro h
  cases a <;> simp only [accStep, hd, Bool.false_eq_true, if_false] at h <;>
    split at h <;> simp_all

theorem foldl_accStep_not_digRun {p : List Char}
    (hp : ∀ d, p.getLast? = some d → isDigitChar d = false) (r : List Char) :
    p.foldl accStep .noRun ≠ .digRun r := by
  induction p using List.reverseRecOn with
  | nil => simp
  | append_singleton q d _ =>
    rw [List.foldl_append]
    exact accStep_ne_digRun (hp d (by simp)) _ r

theorem emitStep_digit_of_ne_digRun {a : RunAcc} (ha : ∀ r, a ≠ .digRun r) {d : Char}
    (hd : isDigitChar d = true) : emitStep a d = flushAcc a ∧ accStep a d = .digRun [d] := by
  cases a with
  | noRun => simp [emitStep, accStep, hd]
  | digRun r => exact absurd rfl (ha r)
  | alphaRun r => simp [emitStep, accStep, hd]

theorem all_takeWhile (l : List Char) (p : Char → Bool) : (l.takeWhile p).all p = true := by
  rw [List.all_eq_true]
  exact fun c h => List.mem_takeWhile_imp h

theorem digitsToNat_cons_zero (t : List Char) : digitsToNat ('0' :: t) = digitsToNat t := rfl

theorem normTokens_leading_zero (p s : List Char) (c : Char) (hc : isDigitChar c = true)
    (hp : ∀ d, p.getLast? = some d → isDigitChar d = false) :
    normTokens (p ++ '0' :: c :: s) = normTokens (p ++ c :: s) := by
  unfold normTokens findallRuns
  rw [findallAux_append, findallAux_append]
  have hA := foldl_accStep_not_digRun hp
  have h0 : isDigitChar '0' = true := by decide
  obtain ⟨he0, ha0⟩ := emitStep_digit_of_ne_digRun hA h0
  obtain ⟨hec, hac⟩ := emitStep_digit_of_ne_digRun hA hc
  rw [show findallAux (p.foldl accStep .noRun) ('0' :: c :: s)
        = flushAcc (p.foldl accStep .noRun) ++ findallAux (.digRun ['0']) (c :: s) by
    rw [show findallAux (p.foldl accStep .noRun) ('0' :: c :: s)
          = emitStep (p.foldl accStep .noRun) '0'
            ++ findallAux (accStep (p.foldl accStep .noRun) '0') (c :: s) from rfl, he0, ha0]]
  rw [show findallAux (p.foldl accStep .noRun) (c :: s)
        = flushAcc (p.foldl accStep .noRun) ++ findallAux (.digRun [c]) s by
    rw [show findallAux (p.foldl accStep .noRun) (c :: s)
          = emitStep (p.foldl accStep .noRun) c
            ++ findallAux (accStep (p.foldl accStep .noRun) c) s from rfl, hec, hac]]
  rw [show findallAux (.digRun ['0']) (c :: s) = findallAux (.digRun ['0', c]) s by
    simp [findallAux, emitStep, accStep, hc]]
  rw [findallAux_digRun, findallAux_digRun]
  simp only [List.map_append, List.map_cons]
  congr 2
  have hall : (s.takeWhile isDigitChar).all isDigitChar = true := all_takeWhile s isDigitChar
  simp only [List.cons_append, List.nil_append]
  have htok1 : ('0' :: c :: s.takeWhile isDigitChar).all isDigitChar = true := by
    simp [hall, h0, hc]
  have htok2 : (c :: s.takeWhile isDigitChar).all isDigitChar = true := by
    simp [hall, hc]
  simp only [tokOf]
  rw [if_pos htok1, if_pos htok2, digitsToNat_cons_zero]

theorem lookup_setEntry_self (tab : List (String × AddonRec)) (k : String) (v : AddonRec) :
    List.lookup k (setEntry tab k v) = some v := by
  induction tab with
  | nil => simp [setEntry, List.lookup]
  | cons e rest ih =>
    obtain ⟨k1, v1⟩ := e
    by_cases h : k1 = k
    · subst h
      simp [setEntry, List.lookup]
    · simp only [setEntry, if_neg h, List.lookup]
      rw [show (k == k1) = false from beq_false_of_ne (Ne.symm h)]
      exact ih

theorem mem_keys_setEntry (tab : List (String × AddonRec)) (k : String) (v : AddonRec)
    (x : String) : x ∈ (setEntry tab k v).map Prod.fst ↔ x = k ∨ x ∈ tab.map Prod.fst := by
  induction tab with
  | nil => simp [setEntry]
  | cons e rest ih =>
    obtain ⟨k1, v1⟩ := e
    by_cases h : k1 = k
    · subst h
      simp [setEntry]
    · simp only [setEntry, if_neg h, List.map_cons, List.mem_cons, ih]
      tauto

theorem nodup_keys_setEntry (tab : List (String × AddonRec)) (k : String) (v : AddonRec)
    (h : (tab.map Prod.fst).Nodup) : ((setEntry tab k v).map Prod.fst).Nodup := by
  induction tab with
  | nil => simp [setEntry]
  | cons e rest ih =>
    obtain ⟨k1, v1⟩ := e
    simp only [List.map_cons, List.nodup_cons] at h
    by_cases hk : k1 = k
    · subst hk
      show ((if k1 = k1 then (k1, v) :: rest
              else (k1, v1) :: setEntry rest k1 v).map Prod.fst).Nodup
      rw [if_pos rfl]
      simp only [List.map_cons, List.nodup_cons]
      exact h
    · simp only [setEntry, if_neg hk, List.map_cons, List.nodup_cons]
      constructor
      · rw [mem_keys_setEntry]
        rintro (rfl | hm)
        · exact hk rfl
        · exact h.1 hm
      · exact ih h.2

theorem entries_setEntry (tab : List (String × AddonRec)) (k : String) (v : AddonRec)
    (P : String × AddonRec → Prop) (htab : ∀ e ∈ tab, P e) (hv : P (k, v)) :
    ∀ e ∈ setEntry tab k v, P e := by
  induction tab with
  | nil => simpa [setEntry] using hv
  | cons e1 rest ih =>
    obtain ⟨k1, v1⟩ := e1
    by_cases h : k1 = k
    · subst h
      simp only [setEntry, if_pos rfl]
      intro e he
      rcases List.mem_cons.mp he with rfl | he
      · exact hv
      · exact htab e (List.mem_cons_of_mem _ he)
    · simp only [setEntry, if_neg h]
      intro e he
      rcases List.mem_cons.mp he with rfl | he
      · exact htab _ (List.mem_cons_self _ _)
      · exact ih (fun e2 he2 => htab e2 (List.mem_cons_of_mem _ he2)) e he

theorem selStep_entries (tab : List (String × AddonRec)) (r : AddonRec)
    (P : String × AddonRec → Prop) (htab : ∀ e ∈ tab, P e) (hr : P (r.id, r)) :
    ∀ e ∈ selStep tab r, P e := by
  unfold selStep
  cases List.lookup r.id tab with
  | none => exact entries_setEntry tab r.id r P htab hr
  | some b =>
    by_cases hgt : verGt r.ver b.ver
    · simpa [hgt] using entries_setEntry tab r.id r P htab hr
    · simpa [hgt] using htab

theorem selStep_keys_nodup (tab : List (String × AddonRec)) (r : AddonRec)
    (h : (tab.map Prod.fst).Nodup) : ((selStep tab r).map Prod.fst).Nodup := by
  unfold selStep
  cases List.lookup r.id tab with
  | none => exact nodup_keys_setEntry tab r.id r h
  | some b =>
    by_cases hgt : verGt r.ver b.ver
    · simpa [hgt] using nodup_keys_setEntry tab r.id r h
    · simpa [hgt] using h

theorem foldl_selStep_entries (rs : List AddonRec) (P : String × AddonRec → Prop)
    (hP : ∀ x : AddonRec, P (x.id, x)) :
    ∀ tab, (∀ e ∈ tab, P e) → ∀ e ∈ rs.foldl selStep tab, P e := by
  induction rs with
  | nil => intro tab htab; simpa using htab
  | cons r rs ih =>
    intro tab htab
    simp only [List.foldl_cons]
    exact ih (selStep tab r) (selStep_entries tab r P htab (hP r))

theorem foldl_selStep_keys_nodup (rs : List AddonRec) :
    ∀ tab, (tab.map Prod.fst).Nodup → ((rs.foldl selStep tab).map Prod.fst).Nodup := by
  induction rs with
  | nil => intro tab h; simpa using h
  | cons r rs ih =>
    intro tab h
    simp only [List.foldl_cons]
    exact ih (selStep tab r) (selStep_keys_nodup tab r h)

theorem latestTable_id_inv (zips : List ZipFile) :
    ∀ e ∈ latestTable zips, (Prod.snd e).id = e.1 := by
  apply foldl_selStep_entries _ (fun e => (Prod.snd e).id = e.1) (fun x => rfl) []
  simp

theorem latestTable_keys_nodup (zips : List ZipFile) :
    ((latestTable zips).map Prod.fst).Nodup :=
  foldl_selStep_keys_nodup _ [] (by simp)

theorem lookup_some_of_mem_keys (tab : List (String × AddonRec)) (k : String)
    (h : k ∈ tab.map Prod.fst) : ∃ v, List.lookup k tab = some v ∧ (k, v) ∈ tab := by
  induction tab with
  | nil => simp at h
  | cons e rest ih =>
    obtain ⟨k1, v1⟩ := e
    by_cases hk : k = k1
    · subst hk
      exact ⟨v1, by simp [List.lookup], by simp⟩
    · simp only [List.map_cons, List.mem_cons] at h
      rcases h with rfl | h
      · exact absurd rfl hk
      · obtain ⟨v, hv, hmem⟩ := ih h
        refine ⟨v, ?_, List.mem_cons_of_mem _ hmem⟩
        simp only [List.lookup]
        rw [show (k == k1) = false from beq_false_of_ne hk]
        exact hv

theorem clLt_asymm {a b : List Char} (h : clLt a b = true) : clLt b a = false := by
  cases hv : clLt b a
  · rfl
  · have := clLt_trans h hv
    rw [clLt_irrefl] at this
    cases this

theorem insortKey_perm (k : String) (l : List String) : (insortKey k l).Perm (k :: l) := by
  induction l with
  | nil => exact List.Perm.refl _
  | cons x xs ih =>
    by_cases h : clLt k.data x.data
    · simp only [insortKey, if_pos h]
      exact List.Perm.refl _
    · simp only [insortKey, if_neg h]
      exact (ih.cons x).trans (List.Perm.swap k x xs)

theorem sortStrings_perm (l : List String) : (sortStrings l).Perm l := by
  induction l with
  | nil => exact List.Perm.refl _
  | cons x xs ih =>
    simp only [sortStrings, List.foldr_cons]
    exact (insortKey_perm x _).trans (ih.cons x)

theorem mem_insortKey {k y : String} {l : List String} (h : y ∈ insortKey k l) :
    y = k ∨ y ∈ l := by
  have := (insortKey_perm k l).mem_iff.mp h
  simpa using this

theorem insortKey_sorted (k : String) (l : List String)
    (h : List.Pairwise (fun a b => clLt b.data a.data = false) l) :
    List.Pairwise (fun a b => clLt b.data a.data = false) (insortKey k l) := by
  induction l with
  | nil => simp [insortKey]
  | cons x xs ih =>
    by_cases hlt : clLt k.data x.data
    · simp only [insortKey, if_pos hlt]
      refine List.Pairwise.cons ?_ h
      intro y hy
      rcases List.mem_cons.mp hy with rfl | hy
      · exact clLt_asymm hlt
      · cases hv : clLt y.data k.data
        · rfl
        · have h1 : clLt y.data x.data = true := clLt_trans hv hlt
          have h2 : clLt y.data x.data = false :=
            (List.pairwise_cons.mp h).1 y hy
          rw [h1] at h2
          cases h2
    · simp only [insortKey, if_neg hlt]
      refine List.Pairwise.cons ?_ (ih (List.pairwise_cons.mp h).2)
      intro y hy
      rcases mem_insortKey hy with rfl | hy
      · exact Bool.of_not_eq_true hlt
      · exact (List.pairwise_cons.mp h).1 y hy

theorem sortStrings_sorted (l : List String) :
    List.Pairwise (fun a b => clLt b.data a.data = false) (sortStrings l) := by
  induction l with
  | nil => simp [sortStrings]
  | cons x xs ih =>
    simp only [sortStrings, List.foldr_cons]
    exact insortKey_sorted x _ ih

theorem string_data_inj {a b : String} (h : a.data = b.data) : a = b := by
  cases a; cases b; simp_all

theorem clLt_of_le_of_ne {a b : String} (hle : clLt b.data a.data = false) (hne : a ≠ b) :
    clLt a.data b.data = true := by
  cases hv : clLt a.data b.data
  · exact absurd (string_data_inj (clLt_eq_of_not_lt hv hle)) hne
  · rfl

theorem map_id_filterMap_lookup (tab : List (String × AddonRec)) :
    ∀ ks : List String, (∀ k ∈ ks, ∃ v, List.lookup k tab = some v ∧ v.id = k) →
    ((ks.filterMap (fun k => List.lookup k tab)).map AddonRec.id) = ks := by
  intro ks
  induction ks with
  | nil => intro _; rfl
  | cons k ks ih =>
    intro h
    obtain ⟨v, hv, hid⟩ := h k (List.mem_cons_self _ _)
    simp only [List.filterMap_cons, hv, List.map_cons, hid]
    rw [ih (fun k2 hk2 => h k2 (List.mem_cons_of_mem _ hk2))]

theorem selectedRecords_ids (zips : List ZipFile) :
    (selectedRecords zips).map AddonRec.id = sortStrings ((latestTable zips).map Prod.fst) := by
  unfold selectedRecords
  apply map_id_filterMap_lookup
  intro k hk
  have hk2 : k ∈ (latestTable zips).map Prod.fst := (sortStrings_perm _).mem_iff.mp hk
  obtain ⟨v, hv, hmem⟩ := lookup_some_of_mem_keys _ k hk2
  exact ⟨v, hv, latestTable_id_inv zips (k, v) hmem⟩

theorem selectedRecords_ids_nodup (zips : List ZipFile) :
    ((selectedRecords zips).map AddonRec.id).Nodup := by
  rw [selectedRecords_ids]
  exact ((sortStrings_perm _).nodup_iff).mpr (latestTable_keys_nodup zips)

theorem selectedRecords_ids_perm_keys (zips : List ZipFile) :
    ((selectedRecords zips).map AddonRec.id).Perm ((latestTable zips).map Prod.fst) := by
  rw [selectedRecords_ids]
  exact sortStrings_perm _

theorem selectedRecords_pairwise (zips : List ZipFile) :
    List.Pairwise (fun r1 r2 : AddonRec => clLt r1.id.data r2.id.data = true)
      (selectedRecords zips) := by
  have hs := sortStrings_sorted ((latestTable zips).map Prod.fst)
  have hnd : (sortStrings ((latestTable zips).map Prod.fst)).Nodup :=
    ((sortStrings_perm _).nodup_iff).mpr (latestTable_keys_nodup zips)
  have hstrict : List.Pairwise (fun a b : String => clLt a.data b.data = true)
      (sortStrings ((latestTable zips).map Prod.fst)) :=
    (hs.and hnd).imp (fun h => clLt_of_le_of_ne h.1 h.2)
  rw [← selectedRecords_ids] at hstrict
  exact (List.pairwise_map.mp hstrict)

theorem setEntry_ne_nil (tab : List (String × AddonRec)) (k : String) (v : AddonRec) :
    setEntry tab k v ≠ [] := by
  cases tab with
  | nil => simp [setEntry]
  | cons e rest =>
    obtain ⟨k1, v1⟩ := e
    simp only [setEntry]
    split <;> simp

theorem selStep_ne_nil (tab : List (String × AddonRec)) (r : AddonRec) (h : tab ≠ []) :
    selStep tab r ≠ [] := by
  unfold selStep
  cases List.lookup r.id tab with
  | none => exact setEntry_ne_nil tab r.id r
  | some b =>
    by_cases hgt : verGt r.ver b.ver
    · simpa [hgt] using setEntry_ne_nil tab r.id r
    · simpa [hgt] using h

theorem foldl_selStep_ne_nil (rs : List AddonRec) :
    ∀ tab, tab ≠ [] → rs.foldl selStep tab ≠ [] := by
  induction rs with
  | nil => intro tab h; simpa using h
  | cons r rs ih =>
    intro tab h
    simp only [List.foldl_cons]
    exact ih (selStep tab r) (selStep_ne_nil tab r h)

theorem selStep_nil (r : AddonRec) : selStep [] r = [(r.id, r)] := rfl

theorem latestTable_eq_nil_iff (zips : List ZipFile) :
    latestTable zips = [] ↔ (findAddons zips).1 = [] := by
  constructor
  · intro h
    cases hr : (findAddons zips).1 with
    | nil => rfl
    | cons r rs =>
      exfalso
      apply foldl_selStep_ne_nil rs (selStep [] r) (by rw [selStep_nil]; simp)
      unfold latestTable at h
      rw [hr, List.foldl_cons] at h
      exact h
  · intro h
    unfold latestTable
    rw [h]
    rfl

theorem utf8Encode_append (a b : String) :
    utf8Encode (a ++ b) = utf8Encode a ++ utf8Encode b := by
  simp [utf8Encode, String.data_append]

theorem md5Digest_length (msg : List Nat) : (md5Digest msg).length = 16 := by
  unfold md5Digest
  simp [word4LE]

theorem flatMap_length_two (g : Nat → List Char) (h : ∀ b, (g b).length = 2) (l : List Nat) :
    (l.flatMap g).length = 2 * l.length := by
  induction l with
  | nil => rfl
  | cons b bs ih =>
    simp only [List.flatMap_cons, List.length_append, ih, h b, List.length_cons]
    omega

theorem md5hex_length (msg : List Nat) : (md5hex msg).length = 32 := by
  show (md5hex msg).data.length = 32
  simp only [md5hex]
  rw [flatMap_length_two byteHexChars (fun b => rfl), md5Digest_length]

theorem hexChar_mod_mem (x : Nat) : hexChar (x % 16) ∈ hexDigits := by
  have h : ∀ m, m < 16 → hexChar m ∈ hexDigits := by decide
  exact h _ (Nat.mod_lt _ (by decide))

theorem md5hex_chars (msg : List Nat) (c : Char) (h : c ∈ (md5hex msg).data) :
    c ∈ hexDigits := by
  simp only [md5hex, List.mem_flatMap] at h
  obtain ⟨b, _, hc⟩ := h
  simp only [byteHexChars, List.mem_cons, List.not_mem_nil, or_false] at hc
  rcases hc with rfl | rfl
  · exact hexChar_mod_mem _
  · exact hexChar_mod_mem _

theorem chooseDescriptor_first (l1 : List String) (n : String) (l2 : List String)
    (h1 : ∀ m ∈ l1, isDescriptorName m = false) (h2 : isDescriptorName n = true) :
    chooseDescriptor (l1 ++ n :: l2) = some n := by
  unfold chooseDescriptor
  induction l1 with
  | nil => simp [List.find?_cons_of_pos, h2]
  | cons m l1 ih =>
    have hm := h1 m (List.mem_cons_self _ _)
    simp only [List.cons_append]
    rw [List.find?_cons_of_neg _ (by simp [hm])]
    exact ih (fun x hx => h1 x (List.mem_cons_of_mem _ hx))

theorem findAddons_cons_error (z : ZipFile) (zs : List ZipFile) (w : String)
    (h : processZip z = .error w) :
    findAddons (z :: zs) = ((findAddons zs).1, w :: (findAddons zs).2) := by
  simp [findAddons, h]

theorem latestTable_cons_error (z : ZipFile) (zs : List ZipFile) (w : String)
    (h : processZip z = .error w) : latestTable (z :: zs) = latestTable zs := by
  unfold latestTable
  rw [findAddons_cons_error z zs w h]

theorem buildAddonsXml_files (frags : List String) (fs : FileSystem) :
    (buildAddonsXml frags fs).addonsXml = some (utf8Encode (addonsXmlText frags)) ∧
    (buildAddonsXml frags fs).addonsMd5 = some (md5hex (utf8Encode (addonsXmlText frags))) := by
  simp [buildAddonsXml]

theorem not_digit_of_alpha {c : Char} (h : isAlphaChar c = true) : isDigitChar c = false := by
  simp only [isAlphaChar, Bool.or_eq_true, Bool.and_eq_true, decide_eq_true_eq] at h
  simp only [isDigitChar]
  rw [Bool.eq_false_iff]
  intro hb
  simp only [Bool.and_eq_true, decide_eq_true_eq] at hb
  omega

theorem caseLike_swapCaseA : CaseLike swapCaseA := by
  intro c
  by_cases h1 : c = 'A'
  · subst h1
    exact ⟨by decide, by decide, by decide⟩
  · by_cases h2 : c = 'a'
    · subst h2
      exact ⟨by decide, by decide, by decide⟩
    · simp [swapCaseA, h1, h2]

/-- C1: the version ordering tokenizes into maximal digit or letter runs,
discards separators, compares digit runs as integers, places digit runs
below letter runs, compares letter runs case-insensitively, and yields
"1.0.0" < "1.0.0a" < "1.0.1". -/
theorem c1_version_ordering :
    (∀ l : List Char, findallRuns l = runsSpec l)
  ∧ (∀ t : List Char, t.all isDigitChar = true → tokOf t = VTok.num (digitsToNat t))
  ∧ (∀ t : List Char, t ≠ [] → t.all isAlphaChar = true →
       tokOf t = VTok.alpha (t.map toLowerChar))
  ∧ (∀ n s, vtokLt (VTok.num n) (VTok.alpha s) = true)
  ∧ (∀ n m, vtokLt (VTok.num n) (VTok.num m) = decide (n < m))
  ∧ (∀ s t, vtokLt (VTok.alpha s) (VTok.alpha t) = clLt s t)
  ∧ verLt "1.0.0" "1.0.0a" = true
  ∧ verLt "1.0.0a" "1.0.1" = true := by
  refine ⟨findallRuns_eq_runsSpec, ?_, ?_, fun n s => rfl, fun n m => rfl, fun s t => rfl,
    by decide, by decide⟩
  · intro t h
    simp [tokOf, h]
  · intro t hne hall
    cases t with
    | nil => exact absurd rfl hne
    | cons c cs =>
      have hc : isAlphaChar c = true := by
        rw [List.all_cons, Bool.and_eq_true] at hall
        exact hall.1
      have hd : isDigitChar c = false := not_digit_of_alpha hc
      have : (c :: cs).all isDigitChar = false := by
        rw [List.all_cons, hd, Bool.false_and]
      simp [tokOf, this]

theorem c1_witness :
    tokOf ['4', '2'] = VTok.num (digitsToNat ['4', '2'])
  ∧ tokOf ['a', 'B'] = VTok.alpha (['a', 'B'].map toLowerChar) :=
  ⟨c1_version_ordering.2.1 ['4', '2'] (by decide),
   c1_version_ordering.2.2.1 ['a', 'B'] (by decide) (by decide)⟩

/-- C8: the comparison of normalized version tuples is total and transitive
(it is a defined Bool-valued function on all pairs, any two normalized
versions are comparable, and the strict order composes), and
"1.0.0+meta" strictly exceeds "1.0.0", hence ties-or-exceeds it. -/
theorem c8_total_order :
    (∀ a b : String, verLt a b = true ∨ verLt b a = true ∨
        normalize_version a = normalize_version b)
  ∧ (∀ x y z : List VTok, vlistLt x y = true → vlistLt y z = true → vlistLt x z = true)
  ∧ (∀ a b c : String, verLt a b = true → verLt b c = true → verLt a c = true)
  ∧ verLt "1.0.0" "1.0.0+meta" = true := by
  refine ⟨?_, fun x y z h1 h2 => vlistLt_trans h1 h2,
    fun a b c h1 h2 => vlistLt_trans h1 h2, by decide⟩
  intro a b
  cases h1 : verLt a b
  · cases h2 : verLt b a
    · exact Or.inr (Or.inr (vlistLt_eq_of_not_lt h1 h2))
    · exact Or.inr (Or.inl rfl)
  · exact Or.inl rfl

theorem c8_witness :
    vlistLt (normalize_version "1.0.0") (normalize_version "1.0.1") = true ∧
    verLt "1.0.0" "1.0.1" = true :=
  ⟨c8_total_order.2.1 _ _ _
     (by decide : vlistLt (normalize_version "1.0.0") (normalize_version "1.0.0a") = true)
     (by decide : vlistLt (normalize_version "1.0.0a") (normalize_version "1.0.1") = true),
   c8_total_order.2.2.1 "1.0.0" "1.0.0a" "1.0.1" (by decide) (by decide)⟩

/-- C9: normalization is invariant under letter-case changes and under
leading zeros in digit runs — "1.01" and "1.1" normalize equally, as do
"1.0.0A" and "1.0.0a" — and a record whose version normalizes equally to
the kept one leaves the table unchanged, so the first occurrence wins. -/
theorem c9_normalize_invariance :
    (∀ f : Char → Char, CaseLike f → ∀ v : List Char, normTokens (v.map f) = normTokens v)
  ∧ (∀ (p s : List Char) (c : Char), isDigitChar c = true →
       (∀ d, p.getLast? = some d → isDigitChar d = false) →
       normTokens (p ++ '0' :: c :: s) = normTokens (p ++ c :: s))
  ∧ normalize_version "1.01" = normalize_version "1.1"
  ∧ normalize_version "1.0.0A" = normalize_version "1.0.0a"
  ∧ (∀ (tab : List (String × AddonRec)) (r b : AddonRec), List.lookup r.id tab = some b →
       normalize_version b.ver = normalize_version r.ver → selStep tab r = tab) := by
  refine ⟨fun f hf v => normTokens_map_caseLike hf v,
    fun p s c hc hp => normTokens_leading_zero p s c hc hp, by decide, by decide, ?_⟩
  intro tab r b h he
  unfold selStep
  rw [h]
  have hgt : verGt r.ver b.ver = false := by
    unfold verGt
    rw [he]
    exact vlistLt_irrefl _
  show (if verGt r.ver b.ver = true then setEntry tab r.id r else tab) = tab
  rw [hgt]
  simp

theorem c9_witness :
    normTokens ("1.0.0A".data.map swapCaseA) = normTokens "1.0.0A".data
  ∧ normTokens ([] ++ '0' :: '1' :: []) = normTokens ([] ++ '1' :: [])
  ∧ selStep [("a.addon", recA)]
      { id := "a.addon", ver := "1.02.0", elem := elemA2, zpath := "zips/t.zip" }
      = [("a.addon", recA)] :=
  ⟨c9_normalize_invariance.1 swapCaseA caseLike_swapCaseA _,
   c9_normalize_invariance.2.1 [] [] '1' (by decide) (fun d hd => nomatch hd),
   c9_normalize_invariance.2.2.2.2 [("a.addon", recA)]
     { id := "a.addon", ver := "1.02.0", elem := elemA2, zpath := "zips/t.zip" } recA
     (by decide) (by decide)⟩

/-- C2: a scanned record is stored as the latest for its id exactly when no
record for that id exists yet or its version is strictly greater than the
kept one; on a non-greater (in particular equal) comparison the table is
unchanged, so the first of equal-version records is kept; with versions
"1.2.0" and "1.3.0" for one id, only the "1.3.0" record remains. -/
theorem c2_selection_step :
    (∀ (tab : List (String × AddonRec)) (r : AddonRec),
      (List.lookup r.id tab = none →
         selStep tab r = setEntry tab r.id r ∧
         List.lookup r.id (selStep tab r) = some r)
    ∧ (∀ b, List.lookup r.id tab = some b →
        (verGt r.ver b.ver = true →
           selStep tab r = setEntry tab r.id r ∧
           List.lookup r.id (selStep tab r) = some r)
      ∧ (verGt r.ver b.ver = false →
           selStep tab r = tab ∧ List.lookup r.id (selStep tab r) = some b)))
  ∧ latestTable [zipA, zipA2] = [("a.addon", recA2)]
  ∧ latestTable [zipA2, zipA] = [("a.addon", recA2)] := by
  refine ⟨?_, by decide, by decide⟩
  intro tab r
  constructor
  · intro h
    have h1 : selStep tab r = setEntry tab r.id r := by
      unfold selStep
      rw [h]
    exact ⟨h1, by rw [h1]; exact lookup_setEntry_self tab r.id r⟩
  · intro b hb
    constructor
    · intro hgt
      have h1 : selStep tab r = setEntry tab r.id r := by
        unfold selStep
        rw [hb]
        show (if verGt r.ver b.ver = true then setEntry tab r.id r else tab)
            = setEntry tab r.id r
        rw [hgt]
        simp
      exact ⟨h1, by rw [h1]; exact lookup_setEntry_self tab r.id r⟩
    · intro hgt
      have h1 : selStep tab r = tab := by
        unfold selStep
        rw [hb]
        show (if verGt r.ver b.ver = true then setEntry tab r.id r else tab) = tab
        rw [hgt]
        simp
      exact ⟨h1, by rw [h1]; exact hb⟩

theorem c2_witness :
    (selStep [] recA = setEntry [] recA.id recA
      ∧ List.lookup recA.id (selStep [] recA) = some recA)
  ∧ (selStep [("a.addon", recA)] recA2 = setEntry [("a.addon", recA)] recA2.id recA2
      ∧ List.lookup recA2.id (selStep [("a.addon", recA)] recA2) = some recA2)
  ∧ (selStep [("a.addon", recA2)] recA = [("a.addon", recA2)]
      ∧ List.lookup recA.id (selStep [("a.addon", recA2)] recA) = some recA2) :=
  ⟨(c2_selection_step.1 [] recA).1 (by decide),
   ((c2_selection_step.1 [("a.addon", recA)] recA2).2 recA (by decide)).1 (by decide),
   ((c2_selection_step.1 [("a.addon", recA2)] recA).2 recA2 (by decide)).2 (by decide)⟩

/-- C3: for a non-empty selection the file text is exactly the fixed
declaration header (with its newline) immediately followed by the
serialized `<addons>` root wrapping the fragments — nothing stands between
the header and the root element — and the written bytes are the UTF-8
encoding of exactly that. -/
theorem c3_header_layout :
    ∀ frags : List String, frags ≠ [] →
      addonsXmlText frags = XML_HEADER ++ ("<addons>" ++ String.join frags ++ "</addons>")
    ∧ utf8Encode (addonsXmlText frags) =
        utf8Encode XML_HEADER ++ utf8Encode ("<addons>" ++ String.join frags ++ "</addons>")
    ∧ ∀ fs, (buildAddonsXml frags fs).addonsXml = some (utf8Encode (addonsXmlText frags)) := by
  intro frags h
  have h1 : addonsXmlText frags
      = XML_HEADER ++ ("<addons>" ++ String.join frags ++ "</addons>") := by
    unfold addonsXmlText serializeAddons
    rw [if_neg h]
  exact ⟨h1, by rw [h1, utf8Encode_append],
    fun fs => (buildAddonsXml_files frags fs).1⟩

theorem c3_witness :
    addonsXmlText [elemA.frag]
      = XML_HEADER ++ ("<addons>" ++ String.join [elemA.frag] ++ "</addons>")
  ∧ (buildAddonsXml [elemA.frag] fs0).addonsXml
      = some (utf8Encode (addonsXmlText [elemA.frag])) :=
  ⟨(c3_header_layout [elemA.frag] (by decide)).1,
   (c3_header_layout [elemA.frag] (by decide)).2.2 fs0⟩

/-- C4: the aggregated document holds exactly one record per selected
identifier — the listed ids are a duplicate-free permutation of the
selection table's keys — in strictly ascending identifier order, and for
archives "b.addon" and "a.addon" the document lists "a.addon" first. -/
theorem c4_sorted_unique_output :
    (∀ zips : List ZipFile,
      (selectedRecords zips).map AddonRec.id = sortStrings ((latestTable zips).map Prod.fst)
    ∧ ((selectedRecords zips).map AddonRec.id).Perm ((latestTable zips).map Prod.fst)
    ∧ ((selectedRecords zips).map AddonRec.id).Nodup
    ∧ List.Pairwise (fun r1 r2 : AddonRec => clLt r1.id.data r2.id.data = true)
        (selectedRecords zips))
  ∧ (selectedRecords [zipB, zipA]).map AddonRec.id = ["a.addon", "b.addon"]
  ∧ (runMain "zips" [zipB, zipA] fs0).1.addonsXml =
      some (utf8Encode (XML_HEADER ++ "<addons>" ++ elemA.frag ++ elemB.frag ++ "</addons>")) := by
  refine ⟨?_, by decide, by decide⟩
  intro zips
  exact ⟨selectedRecords_ids zips, selectedRecords_ids_perm_keys zips,
    selectedRecords_ids_nodup zips, selectedRecords_pairwise zips⟩

/-- C5: the checksum file's content is the MD5 hex digest (RFC 1321,
32 lowercase hex characters with nothing after them) of the exact byte
content of the `addons.xml` file as written and re-read. -/
theorem c5_md5_of_exact_bytes :
    (∀ (frags : List String) (fs : FileSystem),
       (buildAddonsXml frags fs).addonsMd5 =
         some (md5hex (((buildAddonsXml frags fs).addonsXml).getD [])))
  ∧ (∀ msg : List Nat, (md5hex msg).length = 32)
  ∧ (∀ (msg : List Nat) (c : Char), c ∈ (md5hex msg).data → c ∈ hexDigits)
  ∧ md5hex (utf8Encode "abc") = "900150983cd24fb0d6963f7d28e17f72" := by
  refine ⟨?_, md5hex_length, md5hex_chars, by decide⟩
  intro frags fs
  simp [buildAddonsXml]

theorem c5_witness :
    (md5hex []).length = 32 ∧ 'd' ∈ hexDigits :=
  ⟨c5_md5_of_exact_bytes.2.1 [],
   c5_md5_of_exact_bytes.2.2.1 [] 'd' (by decide)⟩

/-- C6: an archive whose processing fails — corrupt archive, missing
descriptor, read or parse exception, missing or empty id/version — is
reported by exactly one stderr warning, contributes no record and no
selection-table entry, and leaves the processing of all other archives
unchanged. -/
theorem c6_per_archive_failure_isolation :
    ∀ (z : ZipFile) (zs : List ZipFile),
      (∀ w, processZip z = .error w →
          (findAddons (z :: zs)).1 = (findAddons zs).1
        ∧ (findAddons (z :: zs)).2 = w :: (findAddons zs).2
        ∧ latestTable (z :: zs) = latestTable zs)
    ∧ (z.bad = true → processZip z = .error ("[WARN] Bad zip file: " ++ z.path))
    ∧ (z.bad = false → chooseDescriptor z.names = none →
        processZip z = .error ("[WARN] No addon.xml found in " ++ z.path))
    ∧ (∀ n msg, z.bad = false → chooseDescriptor z.names = some n →
        readEntry z n = .error msg →
        processZip z = .error ("[WARN] " ++ z.path ++ ": " ++ msg))
    ∧ (∀ n e, z.bad = false → chooseDescriptor z.names = some n → readEntry z n = .ok e →
        (truthyAttr (getAttr e "id") && truthyAttr (getAttr e "version")) = false →
        processZip z = .error ("[WARN] Missing id/version in " ++ z.path)) := by
  intro z zs
  refine ⟨?_, ?_, ?_, ?_, ?_⟩
  · intro w hw
    refine ⟨?_, ?_, latestTable_cons_error z zs w hw⟩
    · rw [findAddons_cons_error z zs w hw]
    · rw [findAddons_cons_error z zs w hw]
  · intro hb
    simp [processZip, hb]
  · intro hb hn
    simp [processZip, hb, hn]
  · intro n msg hb hn hr
    simp [processZip, hb, hn, hr]
  · intro n e hb hn hr ht
    simp [processZip, hb, hn, hr, ht]

theorem c6_witness :
    (findAddons [zipBroken, zipA]).1 = (findAddons [zipA]).1
  ∧ (findAddons [zipBroken, zipA]).2
      = ("[WARN] Bad zip file: " ++ zipBroken.path) :: (findAddons [zipA]).2
  ∧ processZip zipBroken = Except.error ("[WARN] Bad zip file: " ++ zipBroken.path) :=
  ⟨(((c6_per_archive_failure_isolation zipBroken [zipA]).1
      ("[WARN] Bad zip file: " ++ zipBroken.path)) (by decide)).1,
   (((c6_per_archive_failure_isolation zipBroken [zipA]).1
      ("[WARN] Bad zip file: " ++ zipBroken.path)) (by decide)).2.1,
   (c6_per_archive_failure_isolation zipBroken []).2.1 (by decide)⟩

/-- C7: a run that finds zero usable archives exits with status 1 after a
diagnostic and leaves both output files unwritten; when at least one
usable archive exists the run finishes and writes both files. -/
theorem c7_empty_selection_fatal :
    ∀ (dir : String) (zips : List ZipFile) (fs : FileSystem),
      ((findAddons zips).1 = [] →
        runMain dir zips fs = (fs, RunOutcome.exitFail ("No add-ons found under " ++ dir)))
    ∧ ((findAddons zips).1 ≠ [] →
        (runMain dir zips fs).2 = RunOutcome.finished
      ∧ (runMain dir zips fs).1.addonsXml =
          some (utf8Encode (addonsXmlText ((selectedRecords zips).map (fun r => r.elem.frag))))
      ∧ (runMain dir zips fs).1.addonsMd5 =
          some (md5hex (utf8Encode
            (addonsXmlText ((selectedRecords zips).map (fun r => r.elem.frag)))))) := by
  intro dir zips fs
  constructor
  · intro h
    have ht : latestTable zips = [] := (latestTable_eq_nil_iff zips).mpr h
    simp [runMain, ht]
  · intro h
    have ht : ¬ latestTable zips = [] := fun he => h ((latestTable_eq_nil_iff zips).mp he)
    have hrun : runMain dir zips fs =
        (buildAddonsXml ((selectedRecords zips).map (fun r => r.elem.frag)) fs,
         RunOutcome.finished) := by
      simp [runMain, ht]
    rw [hrun]
    exact ⟨rfl, (buildAddonsXml_files _ fs).1, (buildAddonsXml_files _ fs).2⟩

theorem c7_witness :
    runMain "zips" [] fs0 = (fs0, RunOutcome.exitFail ("No add-ons found under " ++ "zips"))
  ∧ (runMain "zips" [zipA] fs0).2 = RunOutcome.finished :=
  ⟨(c7_empty_selection_fatal "zips" [] fs0).1 rfl,
   ((c7_empty_selection_fatal "zips" [zipA] fs0).2 (by decide)).1⟩

/-- C10: the descriptor used is the first namelist entry whose lowercased
path ends in "/addon.xml"; later matches are ignored without warning; a
root-level "addon.xml" never matches, so such an archive is skipped with
the no-descriptor warning. -/
theorem c10_first_descriptor_only :
    (∀ (l1 l2 : List String) (n : String),
       (∀ m ∈ l1, isDescriptorName m = false) → isDescriptorName n = true →
       chooseDescriptor (l1 ++ n :: l2) = some n)
  ∧ isDescriptorName "addon.xml" = false
  ∧ (∀ z : ZipFile, z.bad = false → z.names = ["addon.xml"] →
       processZip z = .error ("[WARN] No addon.xml found in " ++ z.path))
  ∧ chooseDescriptor ["art.jpg", "a/addon.xml", "b/addon.xml"] = some "a/addon.xml"
  ∧ processZip zipRootDesc = .error ("[WARN] No addon.xml found in " ++ zipRootDesc.path) := by
  refine ⟨fun l1 l2 n h1 h2 => chooseDescriptor_first l1 n l2 h1 h2, by decide, ?_,
    by decide, by decide⟩
  intro z hb hn
  have hcd : chooseDescriptor z.names = none := by
    rw [hn]
    decide
  simp [processZip, hb, hcd]

theorem c10_witness :
    chooseDescriptor (["art.jpg"] ++ "a/addon.xml" :: ["b/addon.xml"]) = some "a/addon.xml"
  ∧ processZip zipRootDesc
      = Except.error ("[WARN] No addon.xml found in " ++ zipRootDesc.path) :=
  ⟨c10_first_descriptor_only.1 ["art.jpg"] ["b/addon.xml"] "a/addon.xml"
     (by decide) (by decide),
   c10_first_descriptor_only.2.2.1 zipRootDesc (by decide) (by decide)⟩
